import Mathlib

/-!
Verification of the AVL tree in `music21/timespans/core.py`.

The Python classes `AVLNode` and `AVLTree` are modelled by a single
inductive type `Tree`: the constructor `nil` stands for the absent node
(`None` in Python, also the empty tree whose `rootNode` is `None`), and
`node` carries the `AVLNode` slots `balance`, `height`, `offset`,
`payload`, `leftChild`, `rightChild` in that order.  The payload is an
opaque caller value (`Option α`, `none` being Python's `None` default);
offsets are modelled by `Int` (only their total order matters to the
code).  The mutating Python methods follow the "return the new subtree
root" discipline, so each is translated into a pure function from trees
to trees.
-/

namespace AVL

inductive Tree (α : Type) where
  | nil : Tree α
  | node (balance : Int) (height : Int) (offset : Int) (payload : Option α)
      (leftChild : Tree α) (rightChild : Tree α) : Tree α
deriving DecidableEq, Repr

/-- Height of a possibly absent node: Python reads `child.height` when the
child exists and substitutes `-1` for an absent child (`AVLNode.update`). -/
def heightOf {α : Type} : Tree α → Int
  | .nil => -1
  | .node _ h _ _ _ _ => h

/-- Cached balance of a node; `0` on the absent node (the code only reads
the balance of nodes it has checked to exist). -/
def balanceOf {α : Type} : Tree α → Int
  | .nil => 0
  | .node b _ _ _ _ _ => b

/-- Offset of a node (`node.offset`); `0` on the absent node, never read there. -/
def offsetOf {α : Type} : Tree α → Int
  | .nil => 0
  | .node _ _ o _ _ _ => o

/-- `AVLNode.update`: rebuild a node from its offset, payload and current
children, recomputing the cached `height` and `balance` slots. -/
def update {α : Type} (offset : Int) (payload : Option α) (l r : Tree α) : Tree α :=
  Tree.node (heightOf r - heightOf l) (max (heightOf l) (heightOf r) + 1) offset payload l r

/-- `AVLTree._rotateLeftLeft`: promote the left child, its former right
child becomes the demoted node's left child; the demoted node is updated
first, then the promoted one. -/
def rotateLeftLeft {α : Type} : Tree α → Tree α
  | .node _ _ o p (.node _ _ o2 p2 l2 r2) r => update o2 p2 l2 (update o p r2 r)
  | t => t

/-- `AVLTree._rotateRightRight`: promote the right child, its former left
child becomes the demoted node's right child; demoted node updated first. -/
def rotateRightRight {α : Type} : Tree α → Tree α
  | .node _ _ o p l (.node _ _ o2 p2 l2 r2) => update o2 p2 (update o p l l2) r2
  | t => t

/-- `AVLTree._rotateLeftRight`: rotate the left child with
`_rotateRightRight`, update, then `_rotateLeftLeft` the node itself. -/
def rotateLeftRight {α : Type} : Tree α → Tree α
  | .node _ _ o p l r => rotateLeftLeft (update o p (rotateRightRight l) r)
  | .nil => .nil

/-- `AVLTree._rotateRightLeft`: rotate the right child with
`_rotateLeftLeft`, update, then `_rotateRightRight` the node itself. -/
def rotateRightLeft {α : Type} : Tree α → Tree α
  | .node _ _ o p l r => rotateRightRight (update o p l (rotateLeftLeft r))
  | .nil => .nil

/-- `AVLTree._rebalance` without its final raise (see `rebalanceE` for the
fault): dispatch on the cached balance and the relevant child's cached
balance, as the Python `if`/`elif` chain does; `None` input passes through. -/
def rebalance {α : Type} : Tree α → Tree α
  | .nil => .nil
  | .node b h o p l r =>
    if 1 < b then
      if 0 ≤ balanceOf r then rotateRightRight (.node b h o p l r)
      else rotateRightLeft (.node b h o p l r)
    else if b < -1 then
      if balanceOf l ≤ 0 then rotateLeftLeft (.node b h o p l r)
      else rotateLeftRight (.node b h o p l r)
    else .node b h o p l r

/-- `AVLTree._rebalance` including its final check
`if node.balance < -1 or node.balance > 1: raise TimespanException(...)`.
`Except.error` models the raised exception. -/
def rebalanceE {α : Type} (t : Tree α) : Except String (Tree α) :=
  match t with
  | .nil => .ok .nil
  | .node b h o p l r =>
    let n2 := rebalance (.node b h o p l r)
    if balanceOf n2 < -1 ∨ 1 < balanceOf n2 then
      .error "Somehow Nodes are still not balanced. node.balance must be between -1 and 1"
    else .ok n2

/-- The recursive worker of `AVLTree.insertAtOffset`: a fresh `AVLNode`
(balance `0`, height `0`, payload `None`) at an absent slot, descent by
comparison with `update` + `_rebalance` on the unwind, and a bare
`_rebalance` of the untouched node when the offset is already present. -/
def insertRec {α : Type} : Tree α → Int → Tree α
  | .nil, offset => .node 0 0 offset none .nil .nil
  | .node b h o p l r, offset =>
    if offset < o then rebalance (update o p (insertRec l offset) r)
    else if o < offset then rebalance (update o p l (insertRec r offset))
    else rebalance (.node b h o p l r)

/-- `AVLTree.insertAtOffset`: `self.rootNode = recurse(self.rootNode, offset)`. -/
def insertAtOffset {α : Type} (t : Tree α) (offset : Int) : Tree α :=
  insertRec t offset

/-- `insertRec` with the rebalance fault modelled (every `_rebalance` call
replaced by `rebalanceE`). -/
def insertRecE {α : Type} : Tree α → Int → Except String (Tree α)
  | .nil, offset => .ok (.node 0 0 offset none .nil .nil)
  | .node b h o p l r, offset =>
    if offset < o then
      (insertRecE l offset).bind (fun l2 => rebalanceE (update o p l2 r))
    else if o < offset then
      (insertRecE r offset).bind (fun r2 => rebalanceE (update o p l r2))
    else rebalanceE (.node b h o p l r)

/-- The `nextNode` loop of `AVLTree._remove`: offset and payload of the
leftmost node of a subtree (the dummy `(0, none)` on the absent node is
never reached by the caller, which only descends into an existing child). -/
def leftmostKP {α : Type} : Tree α → Int × Option α
  | .nil => (0, none)
  | .node _ _ o p .nil _ => (o, p)
  | .node _ _ _ _ (.node b h o2 p2 l2 r2) _ => leftmostKP (.node b h o2 p2 l2 r2)

/-- `AVLTree._remove`: exact hit with two children copies the in-order
successor's offset/payload into the node and deletes the successor from
the right subtree; exact hit otherwise is replaced by
`node.leftChild or node.rightChild`; descent updates and rebalances on
the unwind; an absent node returns `_rebalance(None) = None`. -/
def removeRec {α : Type} : Tree α → Int → Tree α
  | .nil, _ => rebalance .nil
  | .node b h o p l r, offset =>
    if o = offset then
      match l, r with
      | .nil, _ => rebalance r
      | _, .nil => rebalance l
      | .node _ _ _ _ _ _, .node _ _ _ _ _ _ =>
        rebalance (update (leftmostKP r).1 (leftmostKP r).2 l (removeRec r (leftmostKP r).1))
    else if offset < o then rebalance (update o p (removeRec l offset) r)
    else rebalance (update o p l (removeRec r offset))

/-- `removeRec` with the rebalance fault modelled. -/
def removeRecE {α : Type} : Tree α → Int → Except String (Tree α)
  | .nil, _ => rebalanceE .nil
  | .node b h o p l r, offset =>
    if o = offset then
      match l, r with
      | .nil, _ => rebalanceE r
      | _, .nil => rebalanceE l
      | .node _ _ _ _ _ _, .node _ _ _ _ _ _ =>
        (removeRecE r (leftmostKP r).1).bind
          (fun r2 => rebalanceE (update (leftmostKP r).1 (leftmostKP r).2 l r2))
    else if offset < o then
      (removeRecE l offset).bind (fun l2 => rebalanceE (update o p l2 r))
    else
      (removeRecE r offset).bind (fun r2 => rebalanceE (update o p l r2))

/-- `AVLTree.getNodeByOffset`: exact-match descent; each recursive step is
guarded by the truthiness of the child (`node.leftChild and offset < node.offset`). -/
def getNodeByOffset {α : Type} : Tree α → Int → Option (Tree α)
  | .nil, _ => none
  | .node b h o p l r, offset =>
    if o = offset then some (.node b h o p l r)
    else if offset < o then
      match l with
      | .nil => none
      | .node _ _ _ _ _ _ => getNodeByOffset l offset
    else
      match r with
      | .nil => none
      | .node _ _ _ _ _ _ => getNodeByOffset r offset

/-- `AVLTree._getNodeAfter`: go right while `node.offset <= offset` (only
when a right child exists, else `None`); on `offset < node.offset` take the
left result, falling back to the node itself (`recurse(leftChild) or node`). -/
def getNodeAfter {α : Type} : Tree α → Int → Option (Tree α)
  | .nil, _ => none
  | .node b h o p l r, offset =>
    if o ≤ offset then
      match r with
      | .nil => none
      | .node _ _ _ _ _ _ => getNodeAfter r offset
    else (getNodeAfter l offset).orElse (fun _ => some (.node b h o p l r))

/-- `AVLTree.getOffsetAfter`: offset of `_getNodeAfter`, or `None`. -/
def getOffsetAfter {α : Type} (t : Tree α) (offset : Int) : Option Int :=
  match getNodeAfter t offset with
  | some n => some (offsetOf n)
  | none => none

/-- `AVLTree._getNodeBefore`: mirror of `_getNodeAfter`. -/
def getNodeBefore {α : Type} : Tree α → Int → Option (Tree α)
  | .nil, _ => none
  | .node b h o p l r, offset =>
    if o < offset then (getNodeBefore r offset).orElse (fun _ => some (.node b h o p l r))
    else
      match l with
      | .nil => none
      | .node _ _ _ _ _ _ => getNodeBefore l offset

/-- `AVLTree.getOffsetBefore`: offset of `_getNodeBefore`, or `None`. -/
def getOffsetBefore {α : Type} (t : Tree α) (offset : Int) : Option Int :=
  match getNodeBefore t offset with
  | some n => some (offsetOf n)
  | none => none

/-- In-order traversal (`AVLTree.__iter__`), projected to the
offset/payload content of the yielded nodes. -/
def inorderKP {α : Type} : Tree α → List (Int × Option α)
  | .nil => []
  | .node _ _ o p l r => inorderKP l ++ (o, p) :: inorderKP r

/-- The offsets yielded by the in-order traversal, in order. -/
def inorderOffsets {α : Type} (t : Tree α) : List Int :=
  (inorderKP t).map Prod.fst

/-- Cache consistency: every node's `height` slot is
`max(heightOf(left), heightOf(right)) + 1` and its `balance` slot is
`heightOf(right) - heightOf(left)` (an absent child counting as `-1`),
exactly what `AVLNode.update` establishes. -/
def hbOk {α : Type} : Tree α → Bool
  | .nil => true
  | .node b h _ _ l r =>
    hbOk l && hbOk r && decide (h = max (heightOf l) (heightOf r) + 1) &&
      decide (b = heightOf r - heightOf l)

/-- AVL balance: every node's `balance` slot lies in `[-1, 1]`. -/
def balancedB {α : Type} : Tree α → Bool
  | .nil => true
  | .node b _ _ _ l r => decide (-1 ≤ b) && decide (b ≤ 1) && balancedB l && balancedB r

/-- Binary-search-tree order on offsets. -/
def bst {α : Type} : Tree α → Bool
  | .nil => true
  | .node _ _ o _ l r =>
    (inorderOffsets l).all (fun x => decide (x < o)) &&
      (inorderOffsets r).all (fun x => decide (o < x)) && bst l && bst r

/-- All three node invariants of the specification together. -/
def Inv {α : Type} (t : Tree α) : Prop :=
  hbOk t = true ∧ balancedB t = true ∧ bst t = true

instance {α : Type} (t : Tree α) : Decidable (Inv t) := by
  unfold Inv; infer_instance

/-- One step of the public mutating interface: `insertAtOffset` or a
root-level `_remove` (`rootNode = _remove(rootNode, offset)`). -/
inductive Op where
  | insert (offset : Int) : Op
  | remove (offset : Int) : Op

/-- Apply one operation to a tree. -/
def applyOp {α : Type} (t : Tree α) : Op → Tree α
  | .insert k => insertAtOffset t k
  | .remove k => removeRec t k

/-- Apply a sequence of operations, left to right. -/
def applyOps {α : Type} (t : Tree α) (ops : List Op) : Tree α :=
  ops.foldl applyOp t

/-- `AVLNode.__repr__` of the height of a child slot (`None` when absent). -/
def childHeightStr {α : Type} : Tree α → String
  | .nil => "None"
  | .node _ h _ _ _ _ => toString h

/-- `AVLNode.__repr__`. -/
def nodeReprStr {α : Type} : Tree α → String
  | .nil => "None"
  | .node _ h o _ l r =>
    "<Node: Start:" ++ toString o ++ " Height:" ++ toString h ++
      " L:" ++ childHeightStr l ++ " R:" ++ childHeightStr r ++ ">"

/-- The per-child step of `AVLNode._getDebugPieces`: prepend the child-role
tag to the first line and a tab to the rest. -/
def tagPieces (tag : String) : List String → List String
  | [] => []
  | x :: xs => ("\t" ++ tag ++ ": " ++ x) :: xs.map (fun y => "\t" ++ y)

/-- `AVLNode._getDebugPieces`. -/
def getDebugPieces {α : Type} : Tree α → List String
  | .nil => []
  | .node b h o p l r =>
    nodeReprStr (Tree.node b h o p l r) ::
      (tagPieces "L" (getDebugPieces l) ++ tagPieces "R" (getDebugPieces r))

/-- `AVLNode.debug`: newline-join of the debug pieces. -/
def nodeDebug {α : Type} (t : Tree α) : String :=
  String.intercalate "\n" (getDebugPieces t)

/-- `AVLTree.debug`: empty string when `rootNode is None`, else the root
node's dump. -/
def treeDebug {α : Type} (t : Tree α) : String :=
  match t with
  | .nil => ""
  | .node _ _ _ _ _ _ => nodeDebug t

/-- A small concrete instance (keys 1 and 3, consistent caches) used to
instantiate hypotheses of the verification theorems on closed input. -/
def wtree : Tree Nat :=
  Tree.node 1 1 1 none Tree.nil (Tree.node 0 0 3 none Tree.nil Tree.nil)

end AVL

namespace AVL

section Lemmas

variable {α : Type}

theorem heightOf_update (o : Int) (p : Option α) (l r : Tree α) :
    heightOf (update o p l r) = max (heightOf l) (heightOf r) + 1 := rfl

theorem balanceOf_update (o : Int) (p : Option α) (l r : Tree α) :
    balanceOf (update o p l r) = heightOf r - heightOf l := rfl

theorem hbOk_node_iff {b h o : Int} {p : Option α} {l r : Tree α} :
    hbOk (Tree.node b h o p l r) = true ↔
      (hbOk l = true ∧ hbOk r = true ∧ h = max (heightOf l) (heightOf r) + 1 ∧
        b = heightOf r - heightOf l) := by
  simp [hbOk, Bool.and_eq_true, decide_eq_true_eq, and_assoc]

theorem balancedB_node_iff {b h o : Int} {p : Option α} {l r : Tree α} :
    balancedB (Tree.node b h o p l r) = true ↔
      (-1 ≤ b ∧ b ≤ 1 ∧ balancedB l = true ∧ balancedB r = true) := by
  simp [balancedB, Bool.and_eq_true, decide_eq_true_eq, and_assoc]

theorem bst_node_iff {b h o : Int} {p : Option α} {l r : Tree α} :
    bst (Tree.node b h o p l r) = true ↔
      ((∀ x ∈ inorderOffsets l, x < o) ∧ (∀ x ∈ inorderOffsets r, o < x) ∧
        bst l = true ∧ bst r = true) := by
  simp [bst, Bool.and_eq_true, List.all_eq_true, decide_eq_true_eq, and_assoc]

theorem inorderOffsets_nil : inorderOffsets (Tree.nil : Tree α) = [] := rfl

theorem inorderOffsets_node {b h o : Int} {p : Option α} {l r : Tree α} :
    inorderOffsets (Tree.node b h o p l r) = inorderOffsets l ++ o :: inorderOffsets r := by
  simp [inorderOffsets, inorderKP]

theorem inorderKP_update (o : Int) (p : Option α) (l r : Tree α) :
    inorderKP (update o p l r) = inorderKP l ++ (o, p) :: inorderKP r := rfl

theorem neg_one_le_heightOf {t : Tree α} (ht : hbOk t = true) : -1 ≤ heightOf t := by
  induction t with
  | nil => simp [heightOf]
  | node b hh o p l r ihl ihr =>
    rcases hbOk_node_iff.mp ht with ⟨hl, hr, hh2, _⟩
    have h1 := ihl hl
    have h2 := ihr hr
    simp only [heightOf]
    omega

theorem inorderKP_rotateLeftLeft (t : Tree α) :
    inorderKP (rotateLeftLeft t) = inorderKP t := by
  match t with
  | .nil => rfl
  | .node b h o p .nil r => rfl
  | .node b h o p (.node b2 h2 o2 p2 l2 r2) r =>
    simp [rotateLeftLeft, inorderKP, update]

theorem inorderKP_rotateRightRight (t : Tree α) :
    inorderKP (rotateRightRight t) = inorderKP t := by
  match t with
  | .nil => rfl
  | .node b h o p l .nil => rfl
  | .node b h o p l (.node b2 h2 o2 p2 l2 r2) =>
    simp [rotateRightRight, inorderKP, update]

theorem inorderKP_rotateLeftRight (t : Tree α) :
    inorderKP (rotateLeftRight t) = inorderKP t := by
  match t with
  | .nil => rfl
  | .node b h o p l r =>
    simp [rotateLeftRight, inorderKP_rotateLeftLeft, inorderKP_update,
      inorderKP_rotateRightRight, inorderKP]

theorem inorderKP_rotateRightLeft (t : Tree α) :
    inorderKP (rotateRightLeft t) = inorderKP t := by
  match t with
  | .nil => rfl
  | .node b h o p l r =>
    simp [rotateRightLeft, inorderKP_rotateRightRight, inorderKP_update,
      inorderKP_rotateLeftLeft, inorderKP]

theorem inorderKP_rebalance (t : Tree α) :
    inorderKP (rebalance t) = inorderKP t := by
  match t with
  | .nil => rfl
  | .node b h o p l r =>
    simp only [rebalance]
    split_ifs <;>
      simp [inorderKP_rotateRightRight, inorderKP_rotateRightLeft,
        inorderKP_rotateLeftLeft, inorderKP_rotateLeftRight]

theorem inorderOffsets_rebalance (t : Tree α) :
    inorderOffsets (rebalance t) = inorderOffsets t := by
  simp [inorderOffsets, inorderKP_rebalance]

theorem bst_iff_pairwise (t : Tree α) :
    bst t = true ↔ List.Pairwise (fun x y => x < y) (inorderOffsets t) := by
  induction t with
  | nil => simp [bst, inorderOffsets, inorderKP]
  | node b h o p l r ihl ihr =>
    rw [bst_node_iff, inorderOffsets_node, List.pairwise_append]
    constructor
    · rintro ⟨h1, h2, h3, h4⟩
      refine ⟨ihl.mp h3, List.pairwise_cons.mpr ⟨h2, ihr.mp h4⟩, ?_⟩
      intro x hx y hy
      rcases List.mem_cons.mp hy with rfl | hy2
      · exact h1 x hx
      · exact lt_trans (h1 x hx) (h2 y hy2)
    · rintro ⟨hL, hoR, hcross⟩
      rcases List.pairwise_cons.mp hoR with ⟨h2, hR⟩
      exact ⟨fun x hx => hcross x hx o (List.mem_cons_self o _), h2, ihl.mpr hL, ihr.mpr hR⟩

theorem bst_rebalance_iff (t : Tree α) : bst (rebalance t) = true ↔ bst t = true := by
  rw [bst_iff_pairwise, bst_iff_pairwise, inorderOffsets_rebalance]

theorem rebalance_eq_self {t : Tree α} (hb : balancedB t = true) : rebalance t = t := by
  match t with
  | .nil => rfl
  | .node b h o p l r =>
    rcases balancedB_node_iff.mp hb with ⟨h1, h2, _, _⟩
    simp only [rebalance]
    rw [if_neg (by omega), if_neg (by omega)]

end Lemmas

end AVL

namespace AVL

section Rebalance

variable {α : Type}

theorem heightOf_nil : heightOf (Tree.nil : Tree α) = -1 := rfl

theorem heightOf_node (b h o : Int) (p : Option α) (l r : Tree α) :
    heightOf (Tree.node b h o p l r) = h := rfl

theorem balanceOf_node (b h o : Int) (p : Option α) (l r : Tree α) :
    balanceOf (Tree.node b h o p l r) = b := rfl

theorem hbOk_node_eq (b h o : Int) (p : Option α) (l r : Tree α) :
    hbOk (Tree.node b h o p l r) =
      (hbOk l && hbOk r && decide (h = max (heightOf l) (heightOf r) + 1) &&
        decide (b = heightOf r - heightOf l)) := rfl

theorem balancedB_node_eq (b h o : Int) (p : Option α) (l r : Tree α) :
    balancedB (Tree.node b h o p l r) =
      (decide (-1 ≤ b) && decide (b ≤ 1) && balancedB l && balancedB r) := rfl


theorem hbOk_update_iff {o : Int} {p : Option α} {l r : Tree α} :
    hbOk (update o p l r) = true ↔ (hbOk l = true ∧ hbOk r = true) := by
  simp [update, hbOk_node_iff]

theorem balancedB_update_iff {o : Int} {p : Option α} {l r : Tree α} :
    balancedB (update o p l r) = true ↔
      (-1 ≤ heightOf r - heightOf l ∧ heightOf r - heightOf l ≤ 1 ∧
        balancedB l = true ∧ balancedB r = true) := by
  simp [update, balancedB_node_iff]

theorem rebalance_update_avl (o : Int) (p : Option α) {l r : Tree α}
    (hbl : hbOk l = true) (hbr : hbOk r = true)
    (bal : balancedB l = true) (bar : balancedB r = true)
    (hd1 : heightOf r - heightOf l ≤ 2) (hd2 : heightOf l - heightOf r ≤ 2) :
    hbOk (rebalance (update o p l r)) = true ∧
      balancedB (rebalance (update o p l r)) = true ∧
      max (heightOf l) (heightOf r) ≤ heightOf (rebalance (update o p l r)) ∧
      heightOf (rebalance (update o p l r)) ≤ max (heightOf l) (heightOf r) + 1 ∧
      (heightOf r - heightOf l ≤ 1 → heightOf l - heightOf r ≤ 1 →
        heightOf (rebalance (update o p l r)) = max (heightOf l) (heightOf r) + 1) := by
  have hLl := neg_one_le_heightOf hbl
  have hLr := neg_one_le_heightOf hbr
  simp only [update, rebalance]
  by_cases c1 : 1 < heightOf r - heightOf l
  · rw [if_pos c1]
    cases r with
    | nil => exfalso; simp only [heightOf_nil, heightOf_node] at c1; omega
    | node rb rh ro rp rl rr =>
      rcases hbOk_node_iff.mp hbr with ⟨hbrl, hbrr, hrh, hrb⟩
      rcases balancedB_node_iff.mp bar with ⟨hbb1, hbb2, barl, barr⟩
      have hLrl := neg_one_le_heightOf hbrl
      have hLrr := neg_one_le_heightOf hbrr
      simp only [heightOf_nil, heightOf_node] at c1 hd1 hd2 hLr ⊢
      simp only [balanceOf_node]
      by_cases c2 : 0 ≤ rb
      · rw [if_pos c2]
        simp only [rotateRightRight]
        refine ⟨?_, ?_, ?_, ?_, ?_⟩ <;>
          simp only [update, hbOk_node_eq, balancedB_node_eq, heightOf_nil, heightOf_node,
            Bool.and_eq_true, decide_eq_true_eq, and_assoc] <;>
          intros <;> and_intros <;> first | trivial | assumption | omega
      · rw [if_neg c2]
        cases rl with
        | nil => exfalso; simp only [heightOf_nil, heightOf_node] at hrb; omega
        | node qb qh qo qp qa qc =>
          rcases hbOk_node_iff.mp hbrl with ⟨hbqa, hbqc, hqh, hqb⟩
          rcases balancedB_node_iff.mp barl with ⟨hq1, hq2, baqa, baqc⟩
          have hLqa := neg_one_le_heightOf hbqa
          have hLqc := neg_one_le_heightOf hbqc
          simp only [heightOf_nil, heightOf_node] at hrh hrb
          simp only [rotateRightLeft, rotateLeftLeft, rotateRightRight, update]
          refine ⟨?_, ?_, ?_, ?_, ?_⟩ <;>
            simp only [update, hbOk_node_eq, balancedB_node_eq, heightOf_nil, heightOf_node,
              Bool.and_eq_true, decide_eq_true_eq, and_assoc] <;>
            intros <;> and_intros <;> first | trivial | assumption | omega
  · rw [if_neg c1]
    by_cases c3 : heightOf r - heightOf l < -1
    · rw [if_pos c3]
      cases l with
      | nil => exfalso; simp only [heightOf_nil, heightOf_node] at c3; omega
      | node lb lh lo lp la lc =>
        rcases hbOk_node_iff.mp hbl with ⟨hbla, hblc, hlh, hlb⟩
        rcases balancedB_node_iff.mp bal with ⟨hba1, hba2, bala, balc⟩
        have hLla := neg_one_le_heightOf hbla
        have hLlc := neg_one_le_heightOf hblc
        simp only [heightOf_nil, heightOf_node] at c1 c3 hd1 hd2 hLl ⊢
        simp only [balanceOf_node]
        by_cases c4 : lb ≤ 0
        · rw [if_pos c4]
          simp only [rotateLeftLeft]
          refine ⟨?_, ?_, ?_, ?_, ?_⟩ <;>
            simp only [update, hbOk_node_eq, balancedB_node_eq, heightOf_nil, heightOf_node,
              Bool.and_eq_true, decide_eq_true_eq, and_assoc] <;>
            intros <;> and_intros <;> first | trivial | assumption | omega
        · rw [if_neg c4]
          cases lc with
          | nil => exfalso; simp only [heightOf_nil, heightOf_node] at hlb; omega
          | node qb qh qo qp qa qc =>
            rcases hbOk_node_iff.mp hblc with ⟨hbqa, hbqc, hqh, hqb⟩
            rcases balancedB_node_iff.mp balc with ⟨hq1, hq2, baqa, baqc⟩
            have hLqa := neg_one_le_heightOf hbqa
            have hLqc := neg_one_le_heightOf hbqc
            simp only [heightOf_nil, heightOf_node] at hlh hlb
            simp only [rotateLeftRight, rotateRightRight, rotateLeftLeft, update]
            refine ⟨?_, ?_, ?_, ?_, ?_⟩ <;>
              simp only [update, hbOk_node_eq, balancedB_node_eq, heightOf_nil, heightOf_node,
                Bool.and_eq_true, decide_eq_true_eq, and_assoc] <;>
              intros <;> and_intros <;> first | trivial | assumption | omega
    · rw [if_neg c3]
      refine ⟨?_, ?_, ?_, ?_, ?_⟩ <;>
        simp only [hbOk_node_eq, balancedB_node_eq, heightOf_nil, heightOf_node,
          Bool.and_eq_true, decide_eq_true_eq, and_assoc] <;>
        intros <;> and_intros <;> first | trivial | assumption | omega

end Rebalance

end AVL

namespace AVL

section Insert

variable {α : Type}

theorem bst_update_iff {o : Int} {p : Option α} {l r : Tree α} :
    bst (update o p l r) = true ↔
      ((∀ x ∈ inorderOffsets l, x < o) ∧ (∀ x ∈ inorderOffsets r, o < x) ∧
        bst l = true ∧ bst r = true) := by
  simp only [update]
  exact bst_node_iff

theorem insertRec_hb (t : Tree α) (k : Int) :
    hbOk t = true → balancedB t = true →
      hbOk (insertRec t k) = true ∧ balancedB (insertRec t k) = true ∧
        heightOf t ≤ heightOf (insertRec t k) ∧
        heightOf (insertRec t k) ≤ heightOf t + 1 := by
  induction t with
  | nil =>
    intro _ _
    refine ⟨rfl, rfl, ?_, ?_⟩ <;>
      simp only [insertRec, heightOf_nil, heightOf_node] <;> omega
  | node b h o p l r ihl ihr =>
    intro hb ba
    rcases hbOk_node_iff.mp hb with ⟨hbl, hbr, hh, hbb⟩
    rcases balancedB_node_iff.mp ba with ⟨b1, b2, bal, bar⟩
    have hLl := neg_one_le_heightOf hbl
    have hLr := neg_one_le_heightOf hbr
    simp only [insertRec]
    by_cases c1 : k < o
    · rw [if_pos c1]
      rcases ihl hbl bal with ⟨d1, d2, d3, d4⟩
      rcases rebalance_update_avl o p d1 hbr d2 bar (by omega) (by omega)
        with ⟨r1, r2, r3, r4, r5⟩
      refine ⟨r1, r2, ?_, ?_⟩ <;> simp only [heightOf_node]
      · by_cases c2 : heightOf (insertRec l k) - heightOf r ≤ 1
        · have h5 := r5 (by omega) c2
          omega
        · omega
      · omega
    · rw [if_neg c1]
      by_cases c2 : o < k
      · rw [if_pos c2]
        rcases ihr hbr bar with ⟨d1, d2, d3, d4⟩
        rcases rebalance_update_avl o p hbl d1 bal d2 (by omega) (by omega)
          with ⟨r1, r2, r3, r4, r5⟩
        refine ⟨r1, r2, ?_, ?_⟩ <;> simp only [heightOf_node]
        · by_cases c3 : heightOf (insertRec r k) - heightOf l ≤ 1
          · have h5 := r5 c3 (by omega)
            omega
          · omega
        · omega
      · rw [if_neg c2, rebalance_eq_self ba]
        exact ⟨hb, ba, by omega, by omega⟩

theorem mem_inorderKP_insertRec {t : Tree α} {k : Int} (x : Int × Option α)
    (hs : bst t = true) :
    x ∈ inorderKP (insertRec t k) ↔
      (x ∈ inorderKP t ∨ (x = (k, (none : Option α)) ∧ k ∉ inorderOffsets t)) := by
  induction t with
  | nil =>
    simp [insertRec, inorderKP, inorderOffsets]
  | node b h o p l r ihl ihr =>
    rcases bst_node_iff.mp hs with ⟨sl, sr, bsl, bsr⟩
    simp only [insertRec]
    by_cases c1 : k < o
    · rw [if_pos c1]
      have hk : (k ∈ inorderOffsets (Tree.node b h o p l r)) ↔ k ∈ inorderOffsets l := by
        rw [inorderOffsets_node]
        simp only [List.mem_append, List.mem_cons]
        constructor
        · rintro (h1 | h1 | h1)
          · exact h1
          · exact absurd h1 (by omega)
          · exact absurd (sr k h1) (by omega)
        · exact fun h1 => Or.inl h1
      rw [inorderKP_rebalance, inorderKP_update]
      simp only [List.mem_append, List.mem_cons]
      rw [ihl bsl, hk, inorderKP]
      simp only [List.mem_append, List.mem_cons]
      constructor
      · rintro ((h1 | h1) | h1 | h1)
        · exact Or.inl (Or.inl h1)
        · exact Or.inr h1
        · exact Or.inl (Or.inr (Or.inl h1))
        · exact Or.inl (Or.inr (Or.inr h1))
      · rintro ((h1 | h1 | h1) | h1)
        · exact Or.inl (Or.inl h1)
        · exact Or.inr (Or.inl h1)
        · exact Or.inr (Or.inr h1)
        · exact Or.inl (Or.inr h1)
    · rw [if_neg c1]
      by_cases c2 : o < k
      · rw [if_pos c2]
        have hk : (k ∈ inorderOffsets (Tree.node b h o p l r)) ↔ k ∈ inorderOffsets r := by
          rw [inorderOffsets_node]
          simp only [List.mem_append, List.mem_cons]
          constructor
          · rintro (h1 | h1 | h1)
            · exact absurd (sl k h1) (by omega)
            · exact absurd h1 (by omega)
            · exact h1
          · exact fun h1 => Or.inr (Or.inr h1)
        rw [inorderKP_rebalance, inorderKP_update]
        simp only [List.mem_append, List.mem_cons]
        rw [ihr bsr, hk, inorderKP]
        simp only [List.mem_append, List.mem_cons]
        simp only [or_assoc]
      · rw [if_neg c2]
        have hk : k ∈ inorderOffsets (Tree.node b h o p l r) := by
          rw [inorderOffsets_node]
          simp only [List.mem_append, List.mem_cons]
          exact Or.inr (Or.inl (by omega))
        rw [inorderKP_rebalance]
        simp only [hk, not_true_eq_false, and_false, or_false]

theorem mem_offsets_insertRec {t : Tree α} {k x : Int} (hs : bst t = true)
    (hx : x ∈ inorderOffsets (insertRec t k)) : x ∈ inorderOffsets t ∨ x = k := by
  simp only [inorderOffsets, List.mem_map] at hx ⊢
  rcases hx with ⟨pr, hpr, hpx⟩
  rcases (mem_inorderKP_insertRec pr hs).mp hpr with h1 | h1
  · exact Or.inl ⟨pr, h1, hpx⟩
  · right
    rw [← hpx, h1.1]

theorem bst_insertRec {t : Tree α} (k : Int) (hs : bst t = true) :
    bst (insertRec t k) = true := by
  induction t with
  | nil => rfl
  | node b h o p l r ihl ihr =>
    rcases bst_node_iff.mp hs with ⟨sl, sr, bsl, bsr⟩
    simp only [insertRec]
    by_cases c1 : k < o
    · rw [if_pos c1, bst_rebalance_iff, bst_update_iff]
      refine ⟨?_, sr, ihl bsl, bsr⟩
      intro x hx
      rcases mem_offsets_insertRec bsl hx with h1 | h1
      · exact sl x h1
      · omega
    · rw [if_neg c1]
      by_cases c2 : o < k
      · rw [if_pos c2, bst_rebalance_iff, bst_update_iff]
        refine ⟨sl, ?_, bsl, ihr bsr⟩
        intro x hx
        rcases mem_offsets_insertRec bsr hx with h1 | h1
        · exact sr x h1
        · omega
      · rw [if_neg c2, bst_rebalance_iff]
        exact hs

theorem insertRec_of_mem {t : Tree α} {k : Int} (hb : hbOk t = true)
    (ba : balancedB t = true) (hs : bst t = true) (hm : k ∈ inorderOffsets t) :
    insertRec t k = t := by
  induction t with
  | nil => simp [inorderOffsets, inorderKP] at hm
  | node b h o p l r ihl ihr =>
    rcases hbOk_node_iff.mp hb with ⟨hbl, hbr, hh, hbb⟩
    rcases balancedB_node_iff.mp ba with ⟨b1, b2, bal, bar⟩
    rcases bst_node_iff.mp hs with ⟨sl, sr, bsl, bsr⟩
    rw [inorderOffsets_node] at hm
    simp only [List.mem_append, List.mem_cons] at hm
    simp only [insertRec]
    by_cases c1 : k < o
    · rw [if_pos c1]
      have hm2 : k ∈ inorderOffsets l := by
        rcases hm with h1 | h1 | h1
        · exact h1
        · exact absurd h1 (by omega)
        · exact absurd (sr k h1) (by omega)
      rw [ihl hbl bal bsl hm2]
      have hu : update o p l r = Tree.node b h o p l r := by
        simp only [update]
        rw [hh, hbb]
      rw [hu, rebalance_eq_self ba]
    · rw [if_neg c1]
      by_cases c2 : o < k
      · rw [if_pos c2]
        have hm2 : k ∈ inorderOffsets r := by
          rcases hm with h1 | h1 | h1
          · exact absurd (sl k h1) (by omega)
          · exact absurd h1 (by omega)
          · exact h1
        rw [ihr hbr bar bsr hm2]
        have hu : update o p l r = Tree.node b h o p l r := by
          simp only [update]
          rw [hh, hbb]
        rw [hu, rebalance_eq_self ba]
      · rw [if_neg c2, rebalance_eq_self ba]

end Insert

end AVL

namespace AVL

section Remove

variable {α : Type}

theorem inorderKP_nil : inorderKP (Tree.nil : Tree α) = [] := rfl

theorem inorderKP_node {b h o : Int} {p : Option α} {l r : Tree α} :
    inorderKP (Tree.node b h o p l r) = inorderKP l ++ (o, p) :: inorderKP r := rfl

theorem inorderOffsets_def (t : Tree α) :
    inorderOffsets t = (inorderKP t).map Prod.fst := rfl

theorem mem_offsets_of_mem_KP {t : Tree α} {a : Int × Option α} (ha : a ∈ inorderKP t) :
    a.1 ∈ inorderOffsets t :=
  List.mem_map_of_mem Prod.fst ha

theorem inorderKP_leftmost (t : Tree α) (hne : t ≠ Tree.nil) :
    ∃ tl, inorderKP t = leftmostKP t :: tl := by
  induction t with
  | nil => exact absurd rfl hne
  | node b h o p l r ihl ihr =>
    cases l with
    | nil => exact ⟨inorderKP r, rfl⟩
    | node lb lh lo lp la lc =>
      rcases ihl (by simp) with ⟨tl, htl⟩
      refine ⟨tl ++ (o, p) :: inorderKP r, ?_⟩
      simp [inorderKP_node, leftmostKP, htl]

theorem removeRec_found_lnil (b h o k : Int) (p : Option α) (r : Tree α) (hk : o = k) :
    removeRec (Tree.node b h o p Tree.nil r) k = rebalance r := by
  rw [removeRec.eq_2, if_pos hk]

theorem removeRec_found_rnil (b h o k : Int) (p : Option α)
    (lb lh lo : Int) (lp : Option α) (la lc : Tree α) (hk : o = k) :
    removeRec (Tree.node b h o p (Tree.node lb lh lo lp la lc) Tree.nil) k =
      rebalance (Tree.node lb lh lo lp la lc) := by
  rw [removeRec.eq_3, if_pos hk]
  simp

theorem removeRec_found_two (b h o k : Int) (p : Option α)
    (lb lh lo : Int) (lp : Option α) (la lc : Tree α)
    (rb rh ro : Int) (rp : Option α) (rl rr : Tree α) (hk : o = k) :
    removeRec (Tree.node b h o p (Tree.node lb lh lo lp la lc) (Tree.node rb rh ro rp rl rr)) k =
      rebalance (update (leftmostKP (Tree.node rb rh ro rp rl rr)).1
        (leftmostKP (Tree.node rb rh ro rp rl rr)).2 (Tree.node lb lh lo lp la lc)
        (removeRec (Tree.node rb rh ro rp rl rr)
          (leftmostKP (Tree.node rb rh ro rp rl rr)).1)) := by
  rw [removeRec.eq_4, if_pos hk]

theorem removeRec_go_left (b h o k : Int) (p : Option α) (l r : Tree α)
    (h1 : ¬ o = k) (h2 : k < o) :
    removeRec (Tree.node b h o p l r) k = rebalance (update o p (removeRec l k) r) := by
  cases l with
  | nil =>
    cases r with
    | nil => rw [removeRec.eq_2, if_neg h1, if_pos h2]
    | node rb rh ro rp rl rr => rw [removeRec.eq_2, if_neg h1, if_pos h2]
  | node lb lh lo lp la lc =>
    cases r with
    | nil =>
      rw [removeRec.eq_3, if_neg h1, if_pos h2]
      simp
    | node rb rh ro rp rl rr => rw [removeRec.eq_4, if_neg h1, if_pos h2]

theorem removeRec_go_right (b h o k : Int) (p : Option α) (l r : Tree α)
    (h1 : ¬ o = k) (h2 : o < k) :
    removeRec (Tree.node b h o p l r) k = rebalance (update o p l (removeRec r k)) := by
  cases l with
  | nil =>
    cases r with
    | nil => rw [removeRec.eq_2, if_neg h1, if_neg (by omega)]
    | node rb rh ro rp rl rr => rw [removeRec.eq_2, if_neg h1, if_neg (by omega)]
  | node lb lh lo lp la lc =>
    cases r with
    | nil =>
      rw [removeRec.eq_3, if_neg h1, if_neg (by omega)]
      simp
    | node rb rh ro rp rl rr => rw [removeRec.eq_4, if_neg h1, if_neg (by omega)]

theorem removeRec_hb (t : Tree α) :
    ∀ k : Int, hbOk t = true → balancedB t = true →
      hbOk (removeRec t k) = true ∧ balancedB (removeRec t k) = true ∧
        heightOf t - 1 ≤ heightOf (removeRec t k) ∧
        heightOf (removeRec t k) ≤ heightOf t := by
  induction t with
  | nil =>
    intro k _ _
    refine ⟨rfl, rfl, ?_, ?_⟩ <;> rw [removeRec.eq_1] <;>
      simp only [rebalance, heightOf_nil] <;> omega
  | node b h o p l r ihl ihr =>
    intro k hb ba
    rcases hbOk_node_iff.mp hb with ⟨hbl, hbr, hh, hbb⟩
    rcases balancedB_node_iff.mp ba with ⟨b1, b2, bal, bar⟩
    have hLl := neg_one_le_heightOf hbl
    have hLr := neg_one_le_heightOf hbr
    by_cases c1 : o = k
    · cases l with
      | nil =>
        rw [removeRec_found_lnil b h o k p r c1, rebalance_eq_self bar]
        simp only [heightOf_nil, heightOf_node] at hh ⊢
        exact ⟨hbr, bar, by omega, by omega⟩
      | node lb lh lo lp la lc =>
        cases r with
        | nil =>
          rw [removeRec_found_rnil b h o k p lb lh lo lp la lc c1, rebalance_eq_self bal]
          simp only [heightOf_nil, heightOf_node] at hh hLl ⊢
          exact ⟨hbl, bal, by omega, by omega⟩
        | node rb rh ro rp rl rr =>
          rw [removeRec_found_two b h o k p lb lh lo lp la lc rb rh ro rp rl rr c1]
          rcases ihr (leftmostKP (Tree.node rb rh ro rp rl rr)).1 hbr bar
            with ⟨d1, d2, d3, d4⟩
          rcases rebalance_update_avl (leftmostKP (Tree.node rb rh ro rp rl rr)).1
              (leftmostKP (Tree.node rb rh ro rp rl rr)).2 hbl d1 bal d2
              (by omega) (by omega)
            with ⟨r1, r2, r3, r4, r5⟩
          refine ⟨r1, r2, ?_, ?_⟩ <;>
            simp only [heightOf_node] at hh hbb hLl hLr d3 d4 r3 r4 r5 ⊢
          · by_cases c5 : lh - heightOf (removeRec (Tree.node rb rh ro rp rl rr)
                (leftmostKP (Tree.node rb rh ro rp rl rr)).1) ≤ 1
            · have h5 := r5 (by omega) c5
              omega
            · omega
          · omega
    · by_cases c2 : k < o
      · rw [removeRec_go_left b h o k p l r c1 c2]
        rcases ihl k hbl bal with ⟨d1, d2, d3, d4⟩
        rcases rebalance_update_avl o p d1 hbr d2 bar (by omega) (by omega)
          with ⟨r1, r2, r3, r4, r5⟩
        refine ⟨r1, r2, ?_, ?_⟩ <;> simp only [heightOf_node]
        · by_cases c5 : heightOf r - heightOf (removeRec l k) ≤ 1
          · have h5 := r5 c5 (by omega)
            omega
          · omega
        · omega
      · rw [removeRec_go_right b h o k p l r c1 (by omega)]
        rcases ihr k hbr bar with ⟨d1, d2, d3, d4⟩
        rcases rebalance_update_avl o p hbl d1 bal d2 (by omega) (by omega)
          with ⟨r1, r2, r3, r4, r5⟩
        refine ⟨r1, r2, ?_, ?_⟩ <;> simp only [heightOf_node]
        · by_cases c5 : heightOf l - heightOf (removeRec r k) ≤ 1
          · have h5 := r5 (by omega) c5
            omega
          · omega
        · omega

theorem inorderKP_removeRec (t : Tree α) :
    ∀ k : Int, bst t = true →
      inorderKP (removeRec t k) = (inorderKP t).filter (fun x => decide (x.1 ≠ k)) := by
  induction t with
  | nil => intro k _; rfl
  | node b h o p l r ihl ihr =>
    intro k hs
    rcases bst_node_iff.mp hs with ⟨sl, sr, bsl, bsr⟩
    by_cases c1 : o = k
    · cases l with
      | nil =>
        rw [removeRec_found_lnil b h o k p r c1, inorderKP_rebalance, inorderKP_node,
          inorderKP_nil, List.nil_append, List.filter_cons_of_neg (by simp [c1])]
        exact (List.filter_eq_self.mpr (fun a ha => by
          have h2 := sr a.1 (mem_offsets_of_mem_KP ha)
          simp only [decide_eq_true_eq]
          omega)).symm
      | node lb lh lo lp la lc =>
        cases r with
        | nil =>
          rw [removeRec_found_rnil b h o k p lb lh lo lp la lc c1, inorderKP_rebalance,
            @inorderKP_node α b h o p (Tree.node lb lh lo lp la lc) Tree.nil,
            inorderKP_nil, List.filter_append,
            List.filter_cons_of_neg (by simp [c1]), List.filter_nil, List.append_nil]
          exact (List.filter_eq_self.mpr (fun a ha => by
            have h2 := sl a.1 (mem_offsets_of_mem_KP ha)
            simp only [decide_eq_true_eq]
            omega)).symm
        | node rb rh ro rp rl rr =>
          rw [removeRec_found_two b h o k p lb lh lo lp la lc rb rh ro rp rl rr c1]
          have hRne : (Tree.node rb rh ro rp rl rr : Tree α) ≠ Tree.nil := by simp
          rcases inorderKP_leftmost (Tree.node rb rh ro rp rl rr) hRne with ⟨tl, htl⟩
          have hihr := ihr (leftmostKP (Tree.node rb rh ro rp rl rr)).1 bsr
          have hsor := (bst_iff_pairwise (Tree.node rb rh ro rp rl rr)).mp bsr
          rw [inorderOffsets_def, htl, List.map_cons] at hsor
          have hgt := (List.pairwise_cons.mp hsor).1
          have hmo : o < (leftmostKP (Tree.node rb rh ro rp rl rr)).1 := by
            apply sr
            rw [inorderOffsets_def, htl, List.map_cons]
            exact List.mem_cons_self _ _
          have htl_g : tl.filter
              (fun x => decide (x.1 ≠ (leftmostKP (Tree.node rb rh ro rp rl rr)).1)) = tl :=
            List.filter_eq_self.mpr (fun a ha => by
              have h2 := hgt a.1 (List.mem_map_of_mem Prod.fst ha)
              simp only [decide_eq_true_eq]
              omega)
          have htl_f : tl.filter (fun x => decide (x.1 ≠ k)) = tl :=
            List.filter_eq_self.mpr (fun a ha => by
              have h2 : a.1 ∈ inorderOffsets (Tree.node rb rh ro rp rl rr) := by
                rw [inorderOffsets_def, htl, List.map_cons]
                exact List.mem_cons_of_mem _ (List.mem_map_of_mem Prod.fst ha)
              have h3 := sr a.1 h2
              simp only [decide_eq_true_eq]
              omega)
          have hfl : (inorderKP (Tree.node lb lh lo lp la lc)).filter
              (fun x => decide (x.1 ≠ k)) = inorderKP (Tree.node lb lh lo lp la lc) :=
            List.filter_eq_self.mpr (fun a ha => by
              have h2 := sl a.1 (mem_offsets_of_mem_KP ha)
              simp only [decide_eq_true_eq]
              omega)
          rw [inorderKP_rebalance, inorderKP_update, hihr, htl,
            List.filter_cons_of_neg (by simp), htl_g,
            @inorderKP_node α b h o p (Tree.node lb lh lo lp la lc)
              (Tree.node rb rh ro rp rl rr),
            htl, List.filter_append, hfl,
            List.filter_cons_of_neg (by simp [c1]),
            List.filter_cons_of_pos (by simp only [decide_eq_true_eq]; omega), htl_f]
    · by_cases c2 : k < o
      · rw [removeRec_go_left b h o k p l r c1 c2, inorderKP_rebalance, inorderKP_update,
          ihl k bsl, inorderKP_node, List.filter_append,
          List.filter_cons_of_pos (by simp only [decide_eq_true_eq]; omega),
          (@List.filter_eq_self (Int × Option α) (fun x => decide (x.1 ≠ k))
            (inorderKP r)).mpr (fun a ha => by
            have h2 := sr a.1 (mem_offsets_of_mem_KP ha)
            simp only [decide_eq_true_eq]
            omega)]
      · rw [removeRec_go_right b h o k p l r c1 (by omega), inorderKP_rebalance,
          inorderKP_update, ihr k bsr, inorderKP_node, List.filter_append,
          List.filter_cons_of_pos (by simp only [decide_eq_true_eq]; omega),
          (@List.filter_eq_self (Int × Option α) (fun x => decide (x.1 ≠ k))
            (inorderKP l)).mpr (fun a ha => by
            have h2 := sl a.1 (mem_offsets_of_mem_KP ha)
            simp only [decide_eq_true_eq]
            omega)]

theorem bst_removeRec (t : Tree α) (k : Int) (hs : bst t = true) :
    bst (removeRec t k) = true := by
  have h1 := inorderKP_removeRec t k hs
  rw [bst_iff_pairwise] at hs ⊢
  rw [inorderOffsets_def] at hs ⊢
  rw [h1]
  exact List.Pairwise.sublist ((List.filter_sublist _).map Prod.fst) hs

theorem removeRec_of_not_mem {t : Tree α} {k : Int} (hb : hbOk t = true)
    (ba : balancedB t = true) (hs : bst t = true) (hm : k ∉ inorderOffsets t) :
    removeRec t k = t := by
  induction t with
  | nil => rfl
  | node b h o p l r ihl ihr =>
    rcases hbOk_node_iff.mp hb with ⟨hbl, hbr, hh, hbb⟩
    rcases balancedB_node_iff.mp ba with ⟨b1, b2, bal, bar⟩
    rcases bst_node_iff.mp hs with ⟨sl, sr, bsl, bsr⟩
    rw [inorderOffsets_node] at hm
    simp only [List.mem_append, List.mem_cons] at hm
    push_neg at hm
    have hu : update o p l r = Tree.node b h o p l r := by
      simp only [update]
      rw [hh, hbb]
    by_cases c2 : k < o
    · rw [removeRec_go_left b h o k p l r (by omega) c2, ihl hbl bal bsl hm.1, hu,
        rebalance_eq_self ba]
    · rw [removeRec_go_right b h o k p l r (by omega) (by omega),
        ihr hbr bar bsr hm.2.2, hu, rebalance_eq_self ba]


end Remove

end AVL

namespace AVL

section Search

variable {α : Type}

theorem offsetOf_node (b h o : Int) (p : Option α) (l r : Tree α) :
    offsetOf (Tree.node b h o p l r) = o := rfl

theorem getNodeByOffset_node (b h o : Int) (p : Option α) (l r : Tree α) (k : Int) :
    getNodeByOffset (Tree.node b h o p l r) k =
      if o = k then some (Tree.node b h o p l r)
      else if k < o then getNodeByOffset l k
      else getNodeByOffset r k := by
  cases l <;> cases r <;> simp [getNodeByOffset]

theorem getNodeByOffset_isSome (t : Tree α) (k : Int) (hs : bst t = true) :
    (getNodeByOffset t k).isSome = true ↔ k ∈ inorderOffsets t := by
  induction t with
  | nil => simp [getNodeByOffset, inorderOffsets, inorderKP]
  | node b h o p l r ihl ihr =>
    rcases bst_node_iff.mp hs with ⟨sl, sr, bsl, bsr⟩
    rw [getNodeByOffset_node, inorderOffsets_node]
    simp only [List.mem_append, List.mem_cons]
    by_cases c1 : o = k
    · rw [if_pos c1]
      simp only [Option.isSome_some]
      constructor
      · intro _
        exact Or.inr (Or.inl c1.symm)
      · intro _
        trivial
    · rw [if_neg c1]
      by_cases c2 : k < o
      · rw [if_pos c2, ihl bsl]
        constructor
        · exact fun h1 => Or.inl h1
        · rintro (h1 | h1 | h1)
          · exact h1
          · exact absurd h1 (by omega)
          · exact absurd (sr k h1) (by omega)
      · rw [if_neg c2, ihr bsr]
        constructor
        · exact fun h1 => Or.inr (Or.inr h1)
        · rintro (h1 | h1 | h1)
          · exact absurd (sl k h1) (by omega)
          · exact absurd h1 (by omega)
          · exact h1

theorem getNodeAfter_node (b h o : Int) (p : Option α) (l r : Tree α) (k : Int) :
    getNodeAfter (Tree.node b h o p l r) k =
      if o ≤ k then getNodeAfter r k
      else (getNodeAfter l k).orElse (fun _ => some (Tree.node b h o p l r)) := by
  cases r <;> simp [getNodeAfter]

theorem getNodeAfter_spec (t : Tree α) (k : Int) (hs : bst t = true) :
    (getNodeAfter t k = none → ∀ x ∈ inorderOffsets t, x ≤ k) ∧
      ∀ n, getNodeAfter t k = some n →
        offsetOf n ∈ inorderOffsets t ∧ k < offsetOf n ∧
          ∀ x ∈ inorderOffsets t, k < x → offsetOf n ≤ x := by
  induction t with
  | nil => simp [getNodeAfter, inorderOffsets, inorderKP]
  | node b h o p l r ihl ihr =>
    rcases bst_node_iff.mp hs with ⟨sl, sr, bsl, bsr⟩
    rw [getNodeAfter_node, inorderOffsets_node]
    simp only [List.mem_append, List.mem_cons]
    by_cases c1 : o ≤ k
    · rw [if_pos c1]
      rcases ihr bsr with ⟨ih1, ih2⟩
      constructor
      · intro hnone x hx
        rcases hx with h1 | h1 | h1
        · have := sl x h1
          omega
        · omega
        · exact ih1 hnone x h1
      · intro n hn
        rcases ih2 n hn with ⟨m1, m2, m3⟩
        refine ⟨Or.inr (Or.inr m1), m2, ?_⟩
        intro x hx hkx
        rcases hx with h1 | h1 | h1
        · have := sl x h1
          omega
        · omega
        · exact m3 x h1 hkx
    · rw [if_neg c1]
      rcases ihl bsl with ⟨ih1, ih2⟩
      cases hl : getNodeAfter l k with
      | none =>
        simp only [Option.orElse]
        constructor
        · intro hcon
          exact absurd hcon (by simp)
        · intro n hn
          injection hn with hn2
          subst hn2
          rw [offsetOf_node]
          refine ⟨Or.inr (Or.inl rfl), by omega, ?_⟩
          intro x hx hkx
          rcases hx with h1 | h1 | h1
          · exact absurd (ih1 hl x h1) (by omega)
          · omega
          · have := sr x h1
            omega
      | some m =>
        simp only [Option.orElse]
        rcases ih2 m hl with ⟨m1, m2, m3⟩
        constructor
        · intro hcon
          exact absurd hcon (by simp)
        · intro n hn
          injection hn with hn2
          subst hn2
          refine ⟨Or.inl m1, m2, ?_⟩
          intro x hx hkx
          rcases hx with h1 | h1 | h1
          · exact m3 x h1 hkx
          · have := sl (offsetOf m) m1
            omega
          · have h2 := sl (offsetOf m) m1
            have h3 := sr x h1
            omega

theorem getNodeBefore_node (b h o : Int) (p : Option α) (l r : Tree α) (k : Int) :
    getNodeBefore (Tree.node b h o p l r) k =
      if o < k then (getNodeBefore r k).orElse (fun _ => some (Tree.node b h o p l r))
      else getNodeBefore l k := by
  cases l <;> simp [getNodeBefore]

theorem getNodeBefore_spec (t : Tree α) (k : Int) (hs : bst t = true) :
    (getNodeBefore t k = none → ∀ x ∈ inorderOffsets t, k ≤ x) ∧
      ∀ n, getNodeBefore t k = some n →
        offsetOf n ∈ inorderOffsets t ∧ offsetOf n < k ∧
          ∀ x ∈ inorderOffsets t, x < k → x ≤ offsetOf n := by
  induction t with
  | nil => simp [getNodeBefore, inorderOffsets, inorderKP]
  | node b h o p l r ihl ihr =>
    rcases bst_node_iff.mp hs with ⟨sl, sr, bsl, bsr⟩
    rw [getNodeBefore_node, inorderOffsets_node]
    simp only [List.mem_append, List.mem_cons]
    by_cases c1 : o < k
    · rw [if_pos c1]
      rcases ihr bsr with ⟨ih1, ih2⟩
      cases hr : getNodeBefore r k with
      | none =>
        simp only [Option.orElse]
        constructor
        · intro hcon
          exact absurd hcon (by simp)
        · intro n hn
          injection hn with hn2
          subst hn2
          rw [offsetOf_node]
          refine ⟨Or.inr (Or.inl rfl), by omega, ?_⟩
          intro x hx hxk
          rcases hx with h1 | h1 | h1
          · have := sl x h1
            omega
          · omega
          · exact absurd (ih1 hr x h1) (by omega)
      | some m =>
        simp only [Option.orElse]
        rcases ih2 m hr with ⟨m1, m2, m3⟩
        constructor
        · intro hcon
          exact absurd hcon (by simp)
        · intro n hn
          injection hn with hn2
          subst hn2
          refine ⟨Or.inr (Or.inr m1), m2, ?_⟩
          intro x hx hxk
          rcases hx with h1 | h1 | h1
          · have h2 := sl x h1
            have h3 := sr (offsetOf m) m1
            omega
          · have := sr (offsetOf m) m1
            omega
          · exact m3 x h1 hxk
    · rw [if_neg c1]
      rcases ihl bsl with ⟨ih1, ih2⟩
      constructor
      · intro hnone x hx
        rcases hx with h1 | h1 | h1
        · exact ih1 hnone x h1
        · omega
        · have := sr x h1
          omega
      · intro n hn
        rcases ih2 n hn with ⟨m1, m2, m3⟩
        refine ⟨Or.inl m1, m2, ?_⟩
        intro x hx hxk
        rcases hx with h1 | h1 | h1
        · exact m3 x h1 hxk
        · omega
        · have := sr x h1
          omega

theorem getOffsetAfter_spec (t : Tree α) (k : Int) (hs : bst t = true) :
    (getOffsetAfter t k = none → ∀ x ∈ inorderOffsets t, x ≤ k) ∧
      ∀ m, getOffsetAfter t k = some m →
        m ∈ inorderOffsets t ∧ k < m ∧ ∀ x ∈ inorderOffsets t, k < x → m ≤ x := by
  rcases getNodeAfter_spec t k hs with ⟨h1, h2⟩
  cases hg : getNodeAfter t k with
  | none =>
    constructor
    · intro _
      exact h1 hg
    · intro m hm
      simp only [getOffsetAfter, hg] at hm
      exact absurd hm (by simp)
  | some n =>
    constructor
    · intro hcon
      simp only [getOffsetAfter, hg] at hcon
      exact absurd hcon (by simp)
    · intro m hm
      simp only [getOffsetAfter, hg] at hm
      injection hm with hm2
      subst hm2
      exact h2 n hg

theorem getOffsetBefore_spec (t : Tree α) (k : Int) (hs : bst t = true) :
    (getOffsetBefore t k = none → ∀ x ∈ inorderOffsets t, k ≤ x) ∧
      ∀ m, getOffsetBefore t k = some m →
        m ∈ inorderOffsets t ∧ m < k ∧ ∀ x ∈ inorderOffsets t, x < k → x ≤ m := by
  rcases getNodeBefore_spec t k hs with ⟨h1, h2⟩
  cases hg : getNodeBefore t k with
  | none =>
    constructor
    · intro _
      exact h1 hg
    · intro m hm
      simp only [getOffsetBefore, hg] at hm
      exact absurd hm (by simp)
  | some n =>
    constructor
    · intro hcon
      simp only [getOffsetBefore, hg] at hcon
      exact absurd hcon (by simp)
    · intro m hm
      simp only [getOffsetBefore, hg] at hm
      injection hm with hm2
      subst hm2
      exact h2 n hg

end Search

end AVL

namespace AVL

section Fault

variable {α : Type}

theorem balanceOf_nil : balanceOf (Tree.nil : Tree α) = 0 := rfl

theorem balanceOf_in_range {t : Tree α} (hb : balancedB t = true) :
    -1 ≤ balanceOf t ∧ balanceOf t ≤ 1 := by
  cases t with
  | nil =>
    rw [balanceOf_nil]
    omega
  | node b h o p l r =>
    rcases balancedB_node_iff.mp hb with ⟨h1, h2, _, _⟩
    rw [balanceOf_node]
    omega

theorem rebalanceE_ok {t : Tree α} (hb : balancedB (rebalance t) = true) :
    rebalanceE t = Except.ok (rebalance t) := by
  cases t with
  | nil => rfl
  | node b h o p l r =>
    rcases balanceOf_in_range hb with ⟨h1, h2⟩
    simp only [rebalanceE]
    rw [if_neg (by omega)]

theorem except_bind_ok {β γ : Type} (a : β) (f : β → Except String γ) :
    (Except.ok a : Except String β).bind f = f a := rfl

theorem insertRecE_eq (t : Tree α) (k : Int) :
    hbOk t = true → balancedB t = true →
      insertRecE t k = Except.ok (insertRec t k) := by
  induction t with
  | nil => intro _ _; rfl
  | node b h o p l r ihl ihr =>
    intro hb ba
    rcases hbOk_node_iff.mp hb with ⟨hbl, hbr, hh, hbb⟩
    rcases balancedB_node_iff.mp ba with ⟨b1, b2, bal, bar⟩
    have hLl := neg_one_le_heightOf hbl
    have hLr := neg_one_le_heightOf hbr
    simp only [insertRecE, insertRec]
    by_cases c1 : k < o
    · rw [if_pos c1, if_pos c1, ihl hbl bal, except_bind_ok]
      apply rebalanceE_ok
      rcases insertRec_hb l k hbl bal with ⟨d1, d2, d3, d4⟩
      exact (rebalance_update_avl o p d1 hbr d2 bar (by omega) (by omega)).2.1
    · rw [if_neg c1, if_neg c1]
      by_cases c2 : o < k
      · rw [if_pos c2, if_pos c2, ihr hbr bar, except_bind_ok]
        apply rebalanceE_ok
        rcases insertRec_hb r k hbr bar with ⟨d1, d2, d3, d4⟩
        exact (rebalance_update_avl o p hbl d1 bal d2 (by omega) (by omega)).2.1
      · rw [if_neg c2, if_neg c2]
        apply rebalanceE_ok
        rw [rebalance_eq_self ba]
        exact ba

theorem removeRecE_found_lnil (b h o k : Int) (p : Option α) (r : Tree α) (hk : o = k) :
    removeRecE (Tree.node b h o p Tree.nil r) k = rebalanceE r := by
  rw [removeRecE.eq_2, if_pos hk]

theorem removeRecE_found_rnil (b h o k : Int) (p : Option α)
    (lb lh lo : Int) (lp : Option α) (la lc : Tree α) (hk : o = k) :
    removeRecE (Tree.node b h o p (Tree.node lb lh lo lp la lc) Tree.nil) k =
      rebalanceE (Tree.node lb lh lo lp la lc) := by
  rw [removeRecE.eq_3, if_pos hk]
  simp

theorem removeRecE_found_two (b h o k : Int) (p : Option α)
    (lb lh lo : Int) (lp : Option α) (la lc : Tree α)
    (rb rh ro : Int) (rp : Option α) (rl rr : Tree α) (hk : o = k) :
    removeRecE (Tree.node b h o p (Tree.node lb lh lo lp la lc) (Tree.node rb rh ro rp rl rr)) k =
      (removeRecE (Tree.node rb rh ro rp rl rr)
          (leftmostKP (Tree.node rb rh ro rp rl rr)).1).bind
        (fun r2 => rebalanceE (update (leftmostKP (Tree.node rb rh ro rp rl rr)).1
          (leftmostKP (Tree.node rb rh ro rp rl rr)).2 (Tree.node lb lh lo lp la lc) r2)) := by
  rw [removeRecE.eq_4, if_pos hk]

theorem removeRecE_go_left (b h o k : Int) (p : Option α) (l r : Tree α)
    (h1 : ¬ o = k) (h2 : k < o) :
    removeRecE (Tree.node b h o p l r) k =
      (removeRecE l k).bind (fun l2 => rebalanceE (update o p l2 r)) := by
  cases l with
  | nil =>
    cases r with
    | nil => rw [removeRecE.eq_2, if_neg h1, if_pos h2]
    | node rb rh ro rp rl rr => rw [removeRecE.eq_2, if_neg h1, if_pos h2]
  | node lb lh lo lp la lc =>
    cases r with
    | nil =>
      rw [removeRecE.eq_3, if_neg h1, if_pos h2]
      simp
    | node rb rh ro rp rl rr => rw [removeRecE.eq_4, if_neg h1, if_pos h2]

theorem removeRecE_go_right (b h o k : Int) (p : Option α) (l r : Tree α)
    (h1 : ¬ o = k) (h2 : o < k) :
    removeRecE (Tree.node b h o p l r) k =
      (removeRecE r k).bind (fun r2 => rebalanceE (update o p l r2)) := by
  cases l with
  | nil =>
    cases r with
    | nil => rw [removeRecE.eq_2, if_neg h1, if_neg (by omega)]
    | node rb rh ro rp rl rr => rw [removeRecE.eq_2, if_neg h1, if_neg (by omega)]
  | node lb lh lo lp la lc =>
    cases r with
    | nil =>
      rw [removeRecE.eq_3, if_neg h1, if_neg (by omega)]
      simp
    | node rb rh ro rp rl rr => rw [removeRecE.eq_4, if_neg h1, if_neg (by omega)]

theorem removeRecE_eq (t : Tree α) :
    ∀ k : Int, hbOk t = true → balancedB t = true →
      removeRecE t k = Except.ok (removeRec t k) := by
  induction t with
  | nil => intro k _ _; rfl
  | node b h o p l r ihl ihr =>
    intro k hb ba
    rcases hbOk_node_iff.mp hb with ⟨hbl, hbr, hh, hbb⟩
    rcases balancedB_node_iff.mp ba with ⟨b1, b2, bal, bar⟩
    have hLl := neg_one_le_heightOf hbl
    have hLr := neg_one_le_heightOf hbr
    by_cases c1 : o = k
    · cases l with
      | nil =>
        rw [removeRecE_found_lnil b h o k p r c1, removeRec_found_lnil b h o k p r c1]
        apply rebalanceE_ok
        rw [rebalance_eq_self bar]
        exact bar
      | node lb lh lo lp la lc =>
        cases r with
        | nil =>
          rw [removeRecE_found_rnil b h o k p lb lh lo lp la lc c1,
            removeRec_found_rnil b h o k p lb lh lo lp la lc c1]
          apply rebalanceE_ok
          rw [rebalance_eq_self bal]
          exact bal
        | node rb rh ro rp rl rr =>
          rw [removeRecE_found_two b h o k p lb lh lo lp la lc rb rh ro rp rl rr c1,
            removeRec_found_two b h o k p lb lh lo lp la lc rb rh ro rp rl rr c1,
            ihr (leftmostKP (Tree.node rb rh ro rp rl rr)).1 hbr bar, except_bind_ok]
          apply rebalanceE_ok
          rcases removeRec_hb (Tree.node rb rh ro rp rl rr)
              (leftmostKP (Tree.node rb rh ro rp rl rr)).1 hbr bar with ⟨d1, d2, d3, d4⟩
          exact (rebalance_update_avl (leftmostKP (Tree.node rb rh ro rp rl rr)).1
            (leftmostKP (Tree.node rb rh ro rp rl rr)).2 hbl d1 bal d2
            (by omega) (by omega)).2.1
    · by_cases c2 : k < o
      · rw [removeRecE_go_left b h o k p l r c1 c2, removeRec_go_left b h o k p l r c1 c2,
          ihl k hbl bal, except_bind_ok]
        apply rebalanceE_ok
        rcases removeRec_hb l k hbl bal with ⟨d1, d2, d3, d4⟩
        exact (rebalance_update_avl o p d1 hbr d2 bar (by omega) (by omega)).2.1
      · rw [removeRecE_go_right b h o k p l r c1 (by omega),
          removeRec_go_right b h o k p l r c1 (by omega),
          ihr k hbr bar, except_bind_ok]
        apply rebalanceE_ok
        rcases removeRec_hb r k hbr bar with ⟨d1, d2, d3, d4⟩
        exact (rebalance_update_avl o p hbl d1 bal d2 (by omega) (by omega)).2.1

end Fault

section InvariantOps

variable {α : Type}

theorem Inv_nil : Inv (Tree.nil : Tree α) := ⟨rfl, rfl, rfl⟩

theorem Inv_insert {t : Tree α} (k : Int) (h : Inv t) : Inv (insertRec t k) :=
  ⟨(insertRec_hb t k h.1 h.2.1).1, (insertRec_hb t k h.1 h.2.1).2.1,
    bst_insertRec k h.2.2⟩

theorem Inv_remove {t : Tree α} (k : Int) (h : Inv t) : Inv (removeRec t k) :=
  ⟨(removeRec_hb t k h.1 h.2.1).1, (removeRec_hb t k h.1 h.2.1).2.1,
    bst_removeRec t k h.2.2⟩

theorem Inv_applyOp {t : Tree α} (op : Op) (h : Inv t) : Inv (applyOp t op) := by
  cases op with
  | insert k => exact Inv_insert k h
  | remove k => exact Inv_remove k h

theorem Inv_applyOps (ops : List Op) : ∀ t : Tree α, Inv t → Inv (applyOps t ops) := by
  induction ops with
  | nil => exact fun t h => h
  | cons op ops ih => exact fun t h => ih (applyOp t op) (Inv_applyOp op h)

theorem mem_offsets_insert_self {t : Tree α} (k : Int) (hs : bst t = true) :
    k ∈ inorderOffsets (insertRec t k) := by
  by_cases hm : k ∈ inorderOffsets t
  · rw [inorderOffsets_def] at hm ⊢
    rcases List.mem_map.mp hm with ⟨pr, hpr, hpx⟩
    exact List.mem_map.mpr ⟨pr, (mem_inorderKP_insertRec pr hs).mpr (Or.inl hpr), hpx⟩
  · rw [inorderOffsets_def]
    exact List.mem_map.mpr ⟨(k, none), (mem_inorderKP_insertRec _ hs).mpr
      (Or.inr ⟨rfl, hm⟩), rfl⟩

theorem not_mem_offsets_remove_self {t : Tree α} (k : Int) (hs : bst t = true) :
    k ∉ inorderOffsets (removeRec t k) := by
  rw [inorderOffsets_def, inorderKP_removeRec t k hs]
  intro hcon
  rcases List.mem_map.mp hcon with ⟨pr, hpr, hpx⟩
  have h2 := (List.mem_filter.mp hpr).2
  simp only [decide_eq_true_eq] at h2
  exact h2 hpx

end InvariantOps

end AVL

namespace AVL

section Claims

/-- C1: for every sequence of `insertAtOffset` and root-level `_remove`
operations applied to an initially empty `AVLTree`, after each operation
the tree satisfies all three node invariants: the in-order traversal
yields strictly increasing keys, every node's cached balance lies in
`[-1, 1]`, and every node's cached height equals
`max(heightOf(left), heightOf(right)) + 1` with an absent child counting
as `-1`. -/
theorem C1_invariants_hold (α : Type) (ops : List Op) :
    List.Pairwise (fun x y => x < y) (inorderOffsets (applyOps (Tree.nil : Tree α) ops)) ∧
      balancedB (applyOps (Tree.nil : Tree α) ops) = true ∧
      hbOk (applyOps (Tree.nil : Tree α) ops) = true := by
  rcases Inv_applyOps ops Tree.nil Inv_nil with ⟨h1, h2, h3⟩
  exact ⟨(bst_iff_pairwise _).mp h3, h2, h1⟩

/-- C2: on a BST-ordered tree, `getOffsetAfter k` returns the smallest
key strictly greater than `k` (absence when no key qualifies, in
particular on the empty tree), and `getOffsetBefore k` the largest key
strictly less than `k`; an exact match is excluded by the strict
inequalities. -/
theorem C2_neighbor_semantics (α : Type) (t : Tree α) (k : Int) (hs : bst t = true) :
    ((getOffsetAfter t k = none → ∀ x ∈ inorderOffsets t, x ≤ k) ∧
      (∀ m, getOffsetAfter t k = some m →
        m ∈ inorderOffsets t ∧ k < m ∧ ∀ x ∈ inorderOffsets t, k < x → m ≤ x)) ∧
    ((getOffsetBefore t k = none → ∀ x ∈ inorderOffsets t, k ≤ x) ∧
      (∀ m, getOffsetBefore t k = some m →
        m ∈ inorderOffsets t ∧ m < k ∧ ∀ x ∈ inorderOffsets t, x < k → x ≤ m)) :=
  ⟨getOffsetAfter_spec t k hs, getOffsetBefore_spec t k hs⟩

/-- C3: on an invariant-satisfying tree, after `insertAtOffset k` the
lookup `getNodeByOffset k` returns a present node, and after `_remove` of
`k` from the root it returns absent (`None`). -/
theorem C3_roundtrip (α : Type) (t : Tree α) (k : Int) (h : Inv t) :
    (getNodeByOffset (insertAtOffset t k) k).isSome = true ∧
      getNodeByOffset (removeRec t k) k = none := by
  constructor
  · exact (getNodeByOffset_isSome _ k (bst_insertRec k h.2.2)).mpr
      (mem_offsets_insert_self k h.2.2)
  · have hk2 := not_mem_offsets_remove_self k h.2.2
    have h3 := getNodeByOffset_isSome (removeRec t k) k (bst_removeRec t k h.2.2)
    cases hres : getNodeByOffset (removeRec t k) k with
    | none => rfl
    | some n =>
      exfalso
      apply hk2
      apply h3.mp
      rw [hres]
      rfl

/-- C4: `_rebalance` dispatch — with balance above `1` it applies the
single left rotation exactly when the right child's balance is
nonnegative and the right-then-left double rotation otherwise, and
mirror-symmetrically below `-1`; and `_rotateLeftLeft` (the single right
rotation) promotes the left child to subtree root, attaches the promoted
node's former right child as the demoted root's left child, and
recomputes the cached heights demoted-node-first (the promoted node's
new height is computed from the demoted node's already-recomputed
height). -/
theorem C4_rebalance_dispatch (α : Type) (b h o : Int) (p : Option α) (l r : Tree α) :
    (1 < b → 0 ≤ balanceOf r →
      rebalance (Tree.node b h o p l r) = rotateRightRight (Tree.node b h o p l r)) ∧
    (1 < b → balanceOf r < 0 →
      rebalance (Tree.node b h o p l r) = rotateRightLeft (Tree.node b h o p l r)) ∧
    (b < -1 → balanceOf l ≤ 0 →
      rebalance (Tree.node b h o p l r) = rotateLeftLeft (Tree.node b h o p l r)) ∧
    (b < -1 → 0 < balanceOf l →
      rebalance (Tree.node b h o p l r) = rotateLeftRight (Tree.node b h o p l r)) ∧
    (∀ (b2 h2 o2 : Int) (p2 : Option α) (l2 r2 : Tree α),
      rotateLeftLeft (Tree.node b h o p (Tree.node b2 h2 o2 p2 l2 r2) r) =
        Tree.node
          (heightOf (Tree.node (heightOf r - heightOf r2)
              (max (heightOf r2) (heightOf r) + 1) o p r2 r) - heightOf l2)
          (max (heightOf l2) (heightOf (Tree.node (heightOf r - heightOf r2)
              (max (heightOf r2) (heightOf r) + 1) o p r2 r)) + 1)
          o2 p2 l2
          (Tree.node (heightOf r - heightOf r2)
            (max (heightOf r2) (heightOf r) + 1) o p r2 r)) := by
  refine ⟨?_, ?_, ?_, ?_, ?_⟩
  · intro h1 h2
    simp only [rebalance]
    rw [if_pos h1, if_pos h2]
  · intro h1 h2
    simp only [rebalance]
    rw [if_pos h1, if_neg (by omega)]
  · intro h1 h2
    simp only [rebalance]
    rw [if_neg (by omega), if_pos h1, if_pos h2]
  · intro h1 h2
    simp only [rebalance]
    rw [if_neg (by omega), if_pos h1, if_neg (by omega)]
  · intro b2 h2 o2 p2 l2 r2
    rfl

/-- C5: the only fault `_rebalance` can raise is the internal invariant
violation, and on every invariant-satisfying tree (hence every tree
reachable from empty, by C1) both `insertAtOffset` and `_remove` complete
without raising: the fault-aware functions return `Except.ok` of exactly
the fault-free results, so missing keys and duplicate keys are handled as
absence or a silent no-op, never as a raised fault. -/
theorem C5_no_fault (α : Type) (t : Tree α) (k : Int) (h : Inv t) :
    insertRecE t k = Except.ok (insertRec t k) ∧
      removeRecE t k = Except.ok (removeRec t k) :=
  ⟨insertRecE_eq t k h.1 h.2.1, removeRecE_eq t k h.1 h.2.1⟩

/-- C6: duplicate insert is a no-op — on an invariant-satisfying tree,
inserting an already-present key returns the very same tree (same shape,
same keys, payload untouched), and insert is idempotent. -/
theorem C6_insert_idempotent (α : Type) (t : Tree α) (k : Int) (h : Inv t) :
    (k ∈ inorderOffsets t → insertAtOffset t k = t) ∧
      insertAtOffset (insertAtOffset t k) k = insertAtOffset t k := by
  constructor
  · exact fun hm => insertRec_of_mem h.1 h.2.1 h.2.2 hm
  · exact insertRec_of_mem (Inv_insert k h).1 (Inv_insert k h).2.1
      (Inv_insert k h).2.2 (mem_offsets_insert_self k h.2.2)

/-- C7: removal of an absent key (including from the empty tree) is a
silent no-op: `_remove` returns the tree unchanged — same shape, same
keys, same payloads. -/
theorem C7_remove_absent_noop (α : Type) (t : Tree α) (k : Int) (h : Inv t)
    (hm : k ∉ inorderOffsets t) : removeRec t k = t :=
  removeRec_of_not_mem h.1 h.2.1 h.2.2 hm

/-- C8: inserting 20, 10, 5, 30 in that order into an empty tree yields a
tree whose root has key 10 and height 2, with left child the leaf 5 and
right subtree rooted at 20 whose right child is 30; the root already
becomes 10 at the third insert, the rotation triggered by the 20→10→5
left-left imbalance. -/
theorem C8_scenario_A (α : Type) :
    insertAtOffset (insertAtOffset (insertAtOffset
        (insertAtOffset (Tree.nil : Tree α) 20) 10) 5) 30 =
      Tree.node 1 2 10 none (Tree.node 0 0 5 none Tree.nil Tree.nil)
        (Tree.node 1 1 20 none Tree.nil (Tree.node 0 0 30 none Tree.nil Tree.nil)) ∧
    offsetOf (insertAtOffset (insertAtOffset
        (insertAtOffset (Tree.nil : Tree α) 20) 10) 5) = 10 := by
  constructor <;> rfl

/-- C9: `insertAtOffset` preserves the key→payload association of every
pre-existing key — every offset/payload pair of the original traversal,
including the pair at `k` itself when `k` is already present, survives
the insert (rotations only reattach children and recompute cached
height/balance; a duplicate insert does not reset the payload) — and the
traversal of the result holds exactly the original pairs plus, exactly
when `k` was absent, the new pair `(k, None)`. -/
theorem C9_insert_frame (α : Type) (t : Tree α) (k : Int) (hs : bst t = true) :
    (∀ x : Int × Option α, x ∈ inorderKP (insertAtOffset t k) ↔
      (x ∈ inorderKP t ∨ (x = (k, (none : Option α)) ∧ k ∉ inorderOffsets t))) ∧
      ∀ x : Int × Option α, x ∈ inorderKP t → x ∈ inorderKP (insertAtOffset t k) := by
  simp only [insertAtOffset]
  constructor
  · intro x
    exact mem_inorderKP_insertRec x hs
  · intro x hx
    exact (mem_inorderKP_insertRec x hs).mpr (Or.inl hx)

/-- C10: `AVLTree.debug()` on an empty tree (absent root) returns the
empty string rather than raising or returning an absent value, and on a
non-empty tree it returns the root node's multi-line dump. -/
theorem C10_debug (α : Type) :
    treeDebug (Tree.nil : Tree α) = "" ∧
      ∀ t : Tree α, t ≠ Tree.nil → treeDebug t = nodeDebug t := by
  refine ⟨rfl, ?_⟩
  intro t ht
  cases t with
  | nil => exact absurd rfl ht
  | node b h o p l r => rfl

end Claims

end AVL

namespace AVL

section Witnesses

theorem C2_neighbor_semantics_witness :
    ((getOffsetAfter wtree 2 = none → ∀ x ∈ inorderOffsets wtree, x ≤ 2) ∧
      (∀ m, getOffsetAfter wtree 2 = some m →
        m ∈ inorderOffsets wtree ∧ 2 < m ∧ ∀ x ∈ inorderOffsets wtree, 2 < x → m ≤ x)) ∧
    ((getOffsetBefore wtree 2 = none → ∀ x ∈ inorderOffsets wtree, 2 ≤ x) ∧
      (∀ m, getOffsetBefore wtree 2 = some m →
        m ∈ inorderOffsets wtree ∧ m < 2 ∧ ∀ x ∈ inorderOffsets wtree, x < 2 → x ≤ m)) :=
  C2_neighbor_semantics Nat wtree 2 (by decide)

theorem C3_roundtrip_witness :
    (getNodeByOffset (insertAtOffset wtree 2) 2).isSome = true ∧
      getNodeByOffset (removeRec wtree 2) 2 = none :=
  C3_roundtrip Nat wtree 2 (by decide)

theorem C4_rebalance_dispatch_witness :
    rebalance (Tree.node 2 2 5 (none : Option Nat) Tree.nil
        (Tree.node 1 1 8 none Tree.nil (Tree.node 0 0 9 none Tree.nil Tree.nil))) =
      rotateRightRight (Tree.node 2 2 5 (none : Option Nat) Tree.nil
        (Tree.node 1 1 8 none Tree.nil (Tree.node 0 0 9 none Tree.nil Tree.nil))) ∧
    rebalance (Tree.node (-2) 2 5 (none : Option Nat)
        (Tree.node (-1) 1 3 none (Tree.node 0 0 2 none Tree.nil Tree.nil) Tree.nil)
        Tree.nil) =
      rotateLeftLeft (Tree.node (-2) 2 5 (none : Option Nat)
        (Tree.node (-1) 1 3 none (Tree.node 0 0 2 none Tree.nil Tree.nil) Tree.nil)
        Tree.nil) :=
  ⟨(C4_rebalance_dispatch Nat 2 2 5 none Tree.nil
      (Tree.node 1 1 8 none Tree.nil (Tree.node 0 0 9 none Tree.nil Tree.nil))).1
      (by decide) (by decide),
    (C4_rebalance_dispatch Nat (-2) 2 5 none
      (Tree.node (-1) 1 3 none (Tree.node 0 0 2 none Tree.nil Tree.nil) Tree.nil)
      Tree.nil).2.2.1 (by decide) (by decide)⟩

theorem C5_no_fault_witness :
    insertRecE wtree 2 = Except.ok (insertRec wtree 2) ∧
      removeRecE wtree 2 = Except.ok (removeRec wtree 2) :=
  C5_no_fault Nat wtree 2 (by decide)

theorem C6_insert_idempotent_witness :
    (3 ∈ inorderOffsets wtree → insertAtOffset wtree 3 = wtree) ∧
      insertAtOffset (insertAtOffset wtree 3) 3 = insertAtOffset wtree 3 :=
  C6_insert_idempotent Nat wtree 3 (by decide)

theorem C7_remove_absent_noop_witness : removeRec wtree 5 = wtree :=
  C7_remove_absent_noop Nat wtree 5 (by decide) (by decide)

theorem C9_insert_frame_witness :
    (∀ x : Int × Option Nat, x ∈ inorderKP (insertAtOffset wtree 3) ↔
      (x ∈ inorderKP wtree ∨ (x = (3, (none : Option Nat)) ∧ 3 ∉ inorderOffsets wtree))) ∧
      ∀ x : Int × Option Nat, x ∈ inorderKP wtree → x ∈ inorderKP (insertAtOffset wtree 3) :=
  C9_insert_frame Nat wtree 3 (by decide)

theorem C10_debug_witness :
    treeDebug (Tree.node 0 0 7 (none : Option Nat) Tree.nil Tree.nil) =
      nodeDebug (Tree.node 0 0 7 (none : Option Nat) Tree.nil Tree.nil) :=
  (C10_debug Nat).2 _ (by simp)

end Witnesses

end AVL
